import Mathlib

/-
Verification of the LinkedIn post preprocessing pipeline (preprocess.py).

The pipeline is embedded shallowly:
  * Python strings are lists of Unicode code points (`List Nat`); Python may
    hold lone surrogates in a `str`, which Lean's `String` cannot, hence the
    code-point representation.
  * JSON values (and Python dict/list values) are the inductive `Val`.
  * Python dicts are association lists with Python's update semantics
    (`dget`, `dset`, `dmerge`); `post | metadata` is `dmerge`.
  * The generation service (llm) is opaque: its per-record behaviour is a
    `SvcResult` (raised exception, unparseable response, or parsed JSON) and
    the tag-unification call's behaviour is a `USvc`.
  * An exception that a given function catches is modelled by the fallback
    value the handler produces; an exception that escapes a function is
    modelled by `Option`/a dedicated constructor (`ExtractOut.reraise`,
    `ExtractOut.crash`); `process_posts`'s outer handler turns any escaped
    exception into the empty output list.
-/

/-- JSON / Python values as they occur in the pipeline: null, booleans,
integers, strings (code-point lists), arrays and objects. -/
inductive Val where
  | vnull
  | vbool (b : Bool)
  | vint (n : Int)
  | vstr (s : List Nat)
  | varr (xs : List Val)
  | vobj (fs : List (List Nat × Val))

mutual

/-- Structural equality test on `Val` (Python `==` on these values). -/
def Val.beq : Val → Val → Bool
  | .vnull, .vnull => true
  | .vbool a, .vbool b => a == b
  | .vint a, .vint b => a == b
  | .vstr a, .vstr b => a == b
  | .varr xs, .varr ys => Val.beqL xs ys
  | .vobj xs, .vobj ys => Val.beqF xs ys
  | _, _ => false

/-- Equality test on lists of values. -/
def Val.beqL : List Val → List Val → Bool
  | [], [] => true
  | x :: xs, y :: ys => Val.beq x y && Val.beqL xs ys
  | _, _ => false

/-- Equality test on object field lists. -/
def Val.beqF : List (List Nat × Val) → List (List Nat × Val) → Bool
  | [], [] => true
  | (k, v) :: xs, (k2, v2) :: ys => k == k2 && Val.beq v v2 && Val.beqF xs ys
  | _, _ => false

end

mutual

theorem Val.beq_refl : ∀ v : Val, Val.beq v v = true
  | .vnull => rfl
  | .vbool b => by simp [Val.beq]
  | .vint n => by simp [Val.beq]
  | .vstr s => by simp [Val.beq]
  | .varr xs => by simp [Val.beq, Val.beqL_refl xs]
  | .vobj fs => by simp [Val.beq, Val.beqF_refl fs]

theorem Val.beqL_refl : ∀ xs : List Val, Val.beqL xs xs = true
  | [] => rfl
  | x :: xs => by simp [Val.beqL, Val.beq_refl x, Val.beqL_refl xs]

theorem Val.beqF_refl : ∀ fs : List (List Nat × Val), Val.beqF fs fs = true
  | [] => rfl
  | (k, v) :: fs => by simp [Val.beqF, Val.beq_refl v, Val.beqF_refl fs]

end

mutual

theorem Val.eq_of_beq : ∀ (a b : Val), Val.beq a b = true → a = b
  | .vnull, .vnull, _ => rfl
  | .vbool a, .vbool b, h => by simp [Val.beq] at h; simp [h]
  | .vint a, .vint b, h => by simp [Val.beq] at h; simp [h]
  | .vstr a, .vstr b, h => by simp [Val.beq] at h; simp [h]
  | .varr xs, .varr ys, h => by
      have := Val.eqL_of_beqL xs ys (by simpa [Val.beq] using h)
      simp [this]
  | .vobj xs, .vobj ys, h => by
      have := Val.eqF_of_beqF xs ys (by simpa [Val.beq] using h)
      simp [this]
  | .vnull, .vbool _, h => by simp [Val.beq] at h
  | .vnull, .vint _, h => by simp [Val.beq] at h
  | .vnull, .vstr _, h => by simp [Val.beq] at h
  | .vnull, .varr _, h => by simp [Val.beq] at h
  | .vnull, .vobj _, h => by simp [Val.beq] at h
  | .vbool _, .vnull, h => by simp [Val.beq] at h
  | .vbool _, .vint _, h => by simp [Val.beq] at h
  | .vbool _, .vstr _, h => by simp [Val.beq] at h
  | .vbool _, .varr _, h => by simp [Val.beq] at h
  | .vbool _, .vobj _, h => by simp [Val.beq] at h
  | .vint _, .vnull, h => by simp [Val.beq] at h
  | .vint _, .vbool _, h => by simp [Val.beq] at h
  | .vint _, .vstr _, h => by simp [Val.beq] at h
  | .vint _, .varr _, h => by simp [Val.beq] at h
  | .vint _, .vobj _, h => by simp [Val.beq] at h
  | .vstr _, .vnull, h => by simp [Val.beq] at h
  | .vstr _, .vbool _, h => by simp [Val.beq] at h
  | .vstr _, .vint _, h => by simp [Val.beq] at h
  | .vstr _, .varr _, h => by simp [Val.beq] at h
  | .vstr _, .vobj _, h => by simp [Val.beq] at h
  | .varr _, .vnull, h => by simp [Val.beq] at h
  | .varr _, .vbool _, h => by simp [Val.beq] at h
  | .varr _, .vint _, h => by simp [Val.beq] at h
  | .varr _, .vstr _, h => by simp [Val.beq] at h
  | .varr _, .vobj _, h => by simp [Val.beq] at h
  | .vobj _, .vnull, h => by simp [Val.beq] at h
  | .vobj _, .vbool _, h => by simp [Val.beq] at h
  | .vobj _, .vint _, h => by simp [Val.beq] at h
  | .vobj _, .vstr _, h => by simp [Val.beq] at h
  | .vobj _, .varr _, h => by simp [Val.beq] at h

theorem Val.eqL_of_beqL : ∀ (xs ys : List Val), Val.beqL xs ys = true → xs = ys
  | [], [], _ => rfl
  | [], _ :: _, h => by simp [Val.beqL] at h
  | _ :: _, [], h => by simp [Val.beqL] at h
  | x :: xs, y :: ys, h => by
      have h2 : Val.beq x y = true ∧ Val.beqL xs ys = true := by
        simpa [Val.beqL, Bool.and_eq_true] using h
      have e1 := Val.eq_of_beq x y h2.1
      have e2 := Val.eqL_of_beqL xs ys h2.2
      simp [e1, e2]

theorem Val.eqF_of_beqF : ∀ (xs ys : List (List Nat × Val)),
    Val.beqF xs ys = true → xs = ys
  | [], [], _ => rfl
  | [], _ :: _, h => by simp [Val.beqF] at h
  | _ :: _, [], h => by simp [Val.beqF] at h
  | (k, v) :: xs, (k2, v2) :: ys, h => by
      have h2 : (k = k2 ∧ Val.beq v v2 = true) ∧ Val.beqF xs ys = true := by
        simpa [Val.beqF, Bool.and_eq_true] using h
      have e1 := Val.eq_of_beq v v2 h2.1.2
      have e2 := Val.eqF_of_beqF xs ys h2.2
      simp [h2.1.1, e1, e2]

end

instance : BEq Val := ⟨Val.beq⟩

instance : LawfulBEq Val where
  eq_of_beq h := Val.eq_of_beq _ _ h
  rfl := Val.beq_refl _

instance : DecidableEq Val := fun a b =>
  if h : Val.beq a b = true then isTrue (Val.eq_of_beq a b h)
  else isFalse (fun he => h (he ▸ Val.beq_refl a))

/-- Code points of a Lean string literal, used to write concrete Python
strings compactly. -/
def str2cp (s : String) : List Nat := s.data.map Char.toNat

/-- A Python dict with string keys, in insertion order (a JSON object). -/
abbrev Record := List (List Nat × Val)

/-- Dict lookup: `d[k]` / `k in d` (first binding of `k`; a real dict has
unique keys). -/
def dget (d : Record) (k : List Nat) : Option Val :=
  match d with
  | [] => none
  | (k2, v) :: rest => if k2 = k then some v else dget rest k

/-- Python `k in d`. -/
def hasKey (d : Record) (k : List Nat) : Bool := (dget d k).isSome

/-- Dict update `d[k] = v`: replaces the value in place if the key exists,
otherwise appends the new binding (Python insertion-order semantics). -/
def dset (d : Record) (k : List Nat) (v : Val) : Record :=
  match d with
  | [] => [(k, v)]
  | (k2, v2) :: rest => if k2 = k then (k, v) :: rest else (k2, v2) :: dset rest k v

/-- Python dict merge `d | m`: every binding of `m` written onto `d`,
left to right. -/
def dmerge (d : Record) (m : Record) : Record :=
  m.foldl (fun acc kv => dset acc kv.1 kv.2) d

/-- The keys of a dict are pairwise distinct (true of every real Python
dict, in particular of every parsed JSON object). -/
def keysNodup : Record → Bool
  | [] => true
  | (k, _) :: rest => !(hasKey rest k) && keysNodup rest

def kText : List Nat := str2cp "text"

def kLineCount : List Nat := str2cp "line_count"

def kLanguage : List Nat := str2cp "language"

def kTags : List Nat := str2cp "tags"

def engStr : List Nat := str2cp "English"

def hingStr : List Nat := str2cp "Hinglish"

def genStr : List Nat := str2cp "General"

/-- A UTF-16 surrogate code point, the range the regex `[\ud800-\udfff]`
matches in `clean_unicode_text`. -/
def isSurrogate (c : Nat) : Bool := 0xD800 ≤ c && c ≤ 0xDFFF

/-- `re.sub` of the surrogate range with the empty string; this is also the
effect of `encode('utf-8', errors='ignore').decode('utf-8')` on a Python
string, whose only non-encodable code points are lone surrogates. -/
def removeSurrogates (s : List Nat) : List Nat := s.filter (fun c => !isSurrogate c)

/-- Python `str.replace` for a two-code-point pattern `[a, b]` and a
one-code-point replacement `r`: left-to-right, non-overlapping. -/
def replace2 (a b r : Nat) : List Nat → List Nat
  | c :: d :: rest =>
    if c = a ∧ d = b then r :: replace2 a b r rest
    else c :: replace2 a b r (d :: rest)
  | s => s

/-- Whether the two-code-point pattern `[a, b]` occurs in a string. -/
def hasSub2 (a b : Nat) : List Nat → Bool
  | c :: d :: rest => (decide (c = a) && decide (d = b)) || hasSub2 a b (d :: rest)
  | _ => false

/-- The try-branch of `clean_unicode_text`: strip surrogates, un-escape the
literal two-character sequences backslash-n (92, 110) and backslash-t
(92, 116) into newline (10) and tab (9), then re-encode (which strips any
remaining surrogate, of which there are none left). -/
def cleanPrimary (s : List Nat) : List Nat :=
  removeSurrogates (replace2 92 116 9 (replace2 92 110 10 (removeSurrogates s)))

/-- The except-branch of `clean_unicode_text`:
`re.sub` of every character outside `[\x00-\x7F\u0080-￿]` (that is,
every code point above U+FFFF) with a space. -/
def cleanFallback (s : List Nat) : List Nat :=
  s.map (fun c => if c ≤ 0xFFFF then c else 32)

/-- `clean_unicode_text` on a string argument. The Boolean selects whether
the try-branch runs to completion (`true`) or raises internally so that the
except-branch produces the result (`false`); the function is total either
way — the caller never sees an exception. -/
def clean_unicode_text (ok : Bool) (s : List Nat) : List Nat :=
  if ok then cleanPrimary s else cleanFallback s

/-- Whether a value is a Python string; `clean_unicode_text` starts with
`if not isinstance(text, str): return text`. -/
def isStr : Val → Bool
  | .vstr _ => true
  | _ => false

/-- `clean_unicode_text` on an arbitrary value: non-strings are returned
unchanged before the try-block is ever entered. -/
def cleanValue (ok : Bool) : Val → Val
  | .vstr s => .vstr (clean_unicode_text ok s)
  | v => v

/-- Python `s.split('\n')` on a code-point string. -/
def splitNl : List Nat → List (List Nat)
  | [] => [[]]
  | c :: rest =>
    if c = 10 then [] :: splitNl rest
    else
      match splitNl rest with
      | [] => [[c]]
      | p :: ps => (c :: p) :: ps

/-- Python truthiness of a value (`if res['tags']:`). -/
def truthy : Val → Bool
  | .vnull => false
  | .vbool b => b
  | .vint n => decide (n ≠ 0)
  | .vstr s => decide (s ≠ [])
  | .varr xs => decide (xs ≠ [])
  | .vobj fs => decide (fs ≠ [])

/-- Whether a value is hashable in Python: lists and dicts are not, so
adding one to a `set` (or using one as a dict key) raises `TypeError`. -/
def hashable : Val → Bool
  | .varr _ => false
  | .vobj _ => false
  | _ => true

/-- The default metadata dict built from the cleaned post text on the
enrichment fallback path: `line_count` is `len(cleaned_post.split('\n'))`,
`language` is English, `tags` is the one-element list General. -/
def default_metadata (cleanedPost : List Nat) : Record :=
  [(kLineCount, .vint ((splitNl cleanedPost).length : Int)),
   (kLanguage, .vstr engStr),
   (kTags, .varr [.vstr genStr])]

/-- Behaviour of the generation service on one enrichment request:
the call raises, or returns text `JsonOutputParser` cannot parse
(`OutputParserException`), or returns text that parses to the JSON value
carried by `ok`. -/
inductive SvcResult where
  | err
  | badJson
  | ok (v : Val)

/-- Outcome of `extract_metadata`: a returned metadata dict, the re-raised
`OutputParserException` (caught per-record by `process_posts`), or an
exception escaping even `process_posts`'s per-record handler. -/
inductive ExtractOut where
  | meta (m : Record)
  | reraise
  | crash

/-- The `except Exception` handler of `extract_metadata`: it evaluates
`cleaned_post.split('\n')`, which raises again when the cleaned post is not
a string (that exception escapes; with a string it returns the defaults). -/
def defaultOrCrash (cleanedPost : Val) : ExtractOut :=
  match cleanedPost with
  | .vstr s => .meta (default_metadata s)
  | _ => .crash

/-- `extract_metadata`: re-clean the argument, submit it to the service,
parse and validate the response. A missing required key raises `ValueError`
into the generic handler (defaults); a non-object parse result makes the
key test or the `res['tags']` subscript raise into the same handler; an
`OutputParserException` is re-raised to the caller; a non-list `tags` value
is wrapped into a one-element list when truthy, else replaced by
the list holding General. -/
def extract_metadata (ok : Bool) (svc : SvcResult) (post : Val) : ExtractOut :=
  let cleaned_post := cleanValue ok post
  match svc with
  | .err => defaultOrCrash cleaned_post
  | .badJson => .reraise
  | .ok (.vobj res) =>
    if hasKey res kLineCount && hasKey res kLanguage && hasKey res kTags then
      match dget res kTags with
      | some (.varr _) => .meta res
      | some t =>
        if truthy t then .meta (dset res kTags (.varr [t]))
        else .meta (dset res kTags (.varr [.vstr genStr]))
      | none => .crash
    else defaultOrCrash cleaned_post
  | .ok _ => defaultOrCrash cleaned_post

/-- One iteration of the enrichment loop of `process_posts`: clean
`post['text']` in place, call `extract_metadata`; on success merge
`post | metadata`; if `extract_metadata` raised, the per-record handler
writes the three default fields onto the post and keeps it. `none` models
an exception that escapes to `process_posts`'s outer handler (missing
`text` key, or a handler re-raising on a non-string cleaned text). -/
def enrichOne (ok : Bool) (svc : SvcResult) (post : Record) : Option Record :=
  match dget post kText with
  | none => none
  | some tv =>
    let cleaned := cleanValue ok tv
    let post1 := dset post kText cleaned
    match extract_metadata ok svc cleaned with
    | .meta m => some (dmerge post1 m)
    | .crash => none
    | .reraise =>
      match cleaned with
      | .vstr s =>
        some (dset (dset (dset post1 kLineCount (.vint ((splitNl s).length : Int)))
              kLanguage (.vstr engStr)) kTags (.varr [.vstr genStr]))
      | _ => none

/-- The enrichment loop over the whole batch; the service's behaviour on the
i-th record is `svc i`. `none` propagates an escaped exception. -/
def enrichList (ok : Bool) (svc : Nat → SvcResult) : Nat → List Record → Option (List Record)
  | _, [] => some []
  | i, p :: ps =>
    match enrichOne ok (svc i) p with
    | none => none
    | some p2 =>
      match enrichList ok svc (i + 1) ps with
      | none => none
      | some ps2 => some (p2 :: ps2)

/-- Whether adding the elements of a record's `tags` list to a Python set
succeeds (every element hashable); a non-list or absent `tags` value is
skipped by the collection loop's `isinstance` test. -/
def tagsHashableOK (r : Record) : Bool :=
  match dget r kTags with
  | some (.varr els) => els.all hashable
  | _ => true

/-- The tags the collection loop reads off one record: the elements of its
`tags` field when that is a list, nothing otherwise (the `isinstance`
test). -/
def tagsOfRecord (p : Record) : List Val :=
  match dget p kTags with
  | some (.varr xs) => xs
  | _ => []

/-- The tag-collection loop of `get_unified_tags`: the set of all tags of
all records whose `tags` field is a list. The set is modelled as a
first-occurrence deduplicated list (CPython set iteration order is
unspecified; nothing downstream depends on it). `none` models the
`TypeError` raised by `set.update` on an unhashable tag, which escapes
`get_unified_tags` (the collection loop is outside its try-block). -/
def collectTags (posts : List Record) : Option (List Val) :=
  if posts.all tagsHashableOK then
    some ((posts.foldl (fun acc p => acc ++ tagsOfRecord p) []).dedup)
  else none

/-- Behaviour of the generation service on the single tag-unification
request: the call raises, or returns unparseable text, or returns text that
parses to the JSON value carried by `ok`. -/
inductive USvc where
  | err
  | badJson
  | ok (v : Val)

/-- The mapping the service interaction yields once the unification prompt
was actually built and submitted: the parsed response object (string keys)
on success; a parse failure, a service exception, a non-object response
(whose `res.values()` raises) or an object with an unhashable value (whose
`set(res.values())` raises) all fall back to the identity mapping over the
collected tags. -/
def mappingFor (usvc : USvc) (uniq : List Val) : List (Val × Val) :=
  match usvc with
  | .ok (.vobj m) =>
    if m.all (fun p => hashable p.2) then m.map fun p => (Val.vstr p.1, p.2)
    else uniq.map fun t => (t, t)
  | .ok _ => uniq.map fun t => (t, t)
  | .err => uniq.map fun t => (t, t)
  | .badJson => uniq.map fun t => (t, t)

/-- What `get_unified_tags` does with the collected distinct tags: on an
empty tag set it returns the empty mapping before any service call; then
it builds the comma-joined tag listing, and that join sits outside the
try-block, so any non-string tag (even a hashable one such as an int)
raises `TypeError` out of the function (`none`) before the service is ever
consulted; only with an all-string tag set does the service interaction
happen. -/
def unifyFromTags (usvc : USvc) (uniq : List Val) : Option (List (Val × Val)) :=
  if uniq.isEmpty then some []
  else if uniq.all isStr then some (mappingFor usvc uniq)
  else none

/-- `get_unified_tags`: collect the distinct tags of the batch, then build
the mapping; `none` propagates the tag-collection `TypeError` and the
join's `TypeError` on a non-string tag. -/
def get_unified_tags (usvc : USvc) (posts : List Record) : Option (List (Val × Val)) :=
  match collectTags posts with
  | none => none
  | some uniq => unifyFromTags usvc uniq

/-- Python `unified_tags.get(tag, tag)`. -/
def mget (mp : List (Val × Val)) (t : Val) : Val :=
  match mp.find? (fun p => p.1 == t) with
  | some p => p.2
  | none => t

/-- What `for tag in current_tags` iterates over: the elements of a list,
the one-character strings of a string, the keys of a dict; iterating any
other value raises `TypeError` (`none`). -/
def iterVal : Val → Option (List Val)
  | .varr xs => some xs
  | .vstr s => some (s.map fun c => .vstr [c])
  | .vobj fs => some (fs.map fun p => Val.vstr p.1)
  | _ => none

/-- One iteration of the tag-rewriting loop of `process_posts`:
`post['tags'] = list({unified_tags.get(tag, tag) for tag in post.get('tags', [])})`.
The set comprehension is modelled as a first-occurrence deduplicated list;
`none` models the `TypeError` raised by iterating a non-iterable `tags`
value, by `dict.get` on an unhashable tag, or by inserting an unhashable
mapped value into the set — all of which escape to the outer handler. -/
def applyUnified (mp : List (Val × Val)) (post : Record) : Option Record :=
  let cur : Option (List Val) :=
    match dget post kTags with
    | none => some []
    | some v => iterVal v
  match cur with
  | none => none
  | some tags0 =>
    if tags0.all hashable && (tags0.map (mget mp)).all hashable then
      some (dset post kTags (.varr ((tags0.map (mget mp)).dedup)))
    else none

/-- The tag-rewriting loop over the whole batch. -/
def applyList (mp : List (Val × Val)) : List Record → Option (List Record)
  | [] => some []
  | p :: ps =>
    match applyUnified mp p with
    | none => none
    | some p2 =>
      match applyList mp ps with
      | none => none
      | some ps2 => some (p2 :: ps2)

/-- How loading the input file went: the file is missing
(`FileNotFoundError`), its contents are not valid JSON
(`json.JSONDecodeError`), or it yields a list of records. -/
inductive LoadResult where
  | fileNotFound
  | badJson
  | loaded (posts : List Record)

/-- `process_posts`: load, enrich every record, unify tags, rewrite every
record's tags. Every exception reaching the outer try makes the function
return the empty list (writing the optional output file is I/O and not
modelled; the returned list is what it would serialize). -/
def process_posts (ok : Bool) (svc : Nat → SvcResult) (usvc : USvc)
    (load : LoadResult) : List Record :=
  match load with
  | .fileNotFound => []
  | .badJson => []
  | .loaded posts =>
    match enrichList ok svc 0 posts with
    | none => []
    | some enriched =>
      match get_unified_tags usvc enriched with
      | none => []
      | some mp =>
        match applyList mp enriched with
        | none => []
        | some final => final

theorem dget_dset_self (d : Record) (k : List Nat) (v : Val) :
    dget (dset d k v) k = some v := by
  induction d with
  | nil => simp [dset, dget]
  | cons kv rest ih =>
    obtain ⟨k2, v2⟩ := kv
    by_cases h : k2 = k
    · simp [dset, dget, h]
    · simp [dset, dget, h, ih]

theorem dget_dset_ne (d : Record) (k k2 : List Nat) (v : Val) (h : k2 ≠ k) :
    dget (dset d k2 v) k = dget d k := by
  induction d with
  | nil => simp [dset, dget, h]
  | cons kv rest ih =>
    obtain ⟨k3, v3⟩ := kv
    by_cases h3 : k3 = k2
    · subst h3
      simp [dset, dget, h]
    · simp only [dset, if_neg h3, dget]
      by_cases h4 : k3 = k
      · simp [h4]
      · simp [h4, ih]

theorem hasKey_dset_self (d : Record) (k : List Nat) (v : Val) :
    hasKey (dset d k v) k = true := by
  simp [hasKey, dget_dset_self]

theorem hasKey_dset_ne (d : Record) (k k2 : List Nat) (v : Val) (h : k2 ≠ k) :
    hasKey (dset d k2 v) k = hasKey d k := by
  simp [hasKey, dget_dset_ne d k k2 v h]

theorem dmerge_nil (d : Record) : dmerge d [] = d := rfl

theorem dmerge_cons (d : Record) (k : List Nat) (v : Val) (m : Record) :
    dmerge d ((k, v) :: m) = dmerge (dset d k v) m := rfl

theorem dget_dmerge_of_no_key (d m : Record) (k : List Nat)
    (h : hasKey m k = false) : dget (dmerge d m) k = dget d k := by
  induction m generalizing d with
  | nil => rfl
  | cons kv rest ih =>
    obtain ⟨k2, v2⟩ := kv
    have h2 : k2 ≠ k := by
      intro he
      subst he
      simp [hasKey, dget] at h
    have h3 : hasKey rest k = false := by
      simpa [hasKey, dget, h2] using h
    rw [dmerge_cons, ih _ h3, dget_dset_ne d k k2 v2 h2]

theorem hasKey_dmerge (d m : Record) (k : List Nat) :
    hasKey (dmerge d m) k = (hasKey d k || hasKey m k) := by
  induction m generalizing d with
  | nil => simp [dmerge_nil, hasKey, dget]
  | cons kv rest ih =>
    obtain ⟨k2, v2⟩ := kv
    rw [dmerge_cons, ih]
    by_cases h : k2 = k
    · subst h
      rw [hasKey_dset_self]
      have h2 : hasKey ((k2, v2) :: rest) k2 = true := by simp [hasKey, dget]
      rw [h2]
      simp
    · rw [hasKey_dset_ne d k k2 v2 h]
      have h2 : hasKey ((k2, v2) :: rest) k = hasKey rest k := by
        simp [hasKey, dget, h]
      rw [h2]

theorem dget_dmerge_of_key (d m : Record) (k : List Nat)
    (hn : keysNodup m = true) (h : hasKey m k = true) :
    dget (dmerge d m) k = dget m k := by
  induction m generalizing d with
  | nil => simp [hasKey, dget] at h
  | cons kv rest ih =>
    obtain ⟨k2, v2⟩ := kv
    have hn2 : hasKey rest k2 = false ∧ keysNodup rest = true := by
      simpa [keysNodup] using hn
    by_cases he : k2 = k
    · subst he
      rw [dmerge_cons, dget_dmerge_of_no_key _ _ _ hn2.1,
        dget_dset_self]
      simp [dget]
    · have h3 : hasKey rest k = true := by
        simpa [hasKey, dget, he] using h
      rw [dmerge_cons, ih _ hn2.2 h3]
      simp [dget, he]

theorem keysNodup_dset (d : Record) (k : List Nat) (v : Val)
    (hk : hasKey d k = true) (hn : keysNodup d = true) :
    keysNodup (dset d k v) = true := by
  induction d with
  | nil => simp [hasKey, dget] at hk
  | cons kv rest ih =>
    obtain ⟨k2, v2⟩ := kv
    have hn2 : hasKey rest k2 = false ∧ keysNodup rest = true := by
      simpa [keysNodup] using hn
    by_cases he : k2 = k
    · subst he
      simp [dset, keysNodup, hn2.1, hn2.2]
    · have h3 : hasKey rest k = true := by
        simpa [hasKey, dget, he] using hk
      have : keysNodup (dset rest k v) = true := ih h3 hn2.2
      simp [dset, he, keysNodup, this, hasKey_dset_ne rest k2 k v (fun h => he h.symm), hn2.1]

theorem keys_ne_text_lc : kText ≠ kLineCount := by decide

theorem keys_ne_text_lang : kText ≠ kLanguage := by decide

theorem keys_ne_text_tags : kText ≠ kTags := by decide

theorem keys_ne_lc_lang : kLineCount ≠ kLanguage := by decide

theorem keys_ne_lc_tags : kLineCount ≠ kTags := by decide

theorem keys_ne_lang_tags : kLanguage ≠ kTags := by decide

/-- Lookup results after the three default-field writes of the per-record
fallback handler (lines 52-54): the order is line_count, language, tags. -/
theorem dget_std3 (d : Record) (v1 v2 v3 : Val) :
    dget (dset (dset (dset d kLineCount v1) kLanguage v2) kTags v3) kLineCount = some v1 ∧
    dget (dset (dset (dset d kLineCount v1) kLanguage v2) kTags v3) kLanguage = some v2 ∧
    dget (dset (dset (dset d kLineCount v1) kLanguage v2) kTags v3) kTags = some v3 := by
  refine ⟨?_, ?_, ?_⟩
  · rw [dget_dset_ne _ _ _ _ (Ne.symm keys_ne_lc_tags),
      dget_dset_ne _ _ _ _ (Ne.symm keys_ne_lc_lang), dget_dset_self]
  · rw [dget_dset_ne _ _ _ _ (Ne.symm keys_ne_lang_tags), dget_dset_self]
  · rw [dget_dset_self]

/-- Merging the default metadata dict is the same three writes. -/
theorem dmerge_default (d : Record) (s : List Nat) :
    dmerge d (default_metadata s) =
      dset (dset (dset d kLineCount (.vint ((splitNl s).length : Int)))
        kLanguage (.vstr engStr)) kTags (.varr [.vstr genStr]) := rfl

theorem splitNl_ne_nil (s : List Nat) : splitNl s ≠ [] := by
  induction s with
  | nil => simp [splitNl]
  | cons c rest ih =>
    by_cases h : c = 10
    · simp [splitNl, h]
    · simp only [splitNl, if_neg h]
      cases hs : splitNl rest with
      | nil => simp
      | cons p ps => simp

/-- Python `len(s.split('\n'))` is the newline count plus one — the formula
the specification states for the fallback line count. -/
theorem splitNl_length (s : List Nat) :
    (splitNl s).length = s.count 10 + 1 := by
  induction s with
  | nil => simp [splitNl]
  | cons c rest ih =>
    by_cases h : c = 10
    · subst h
      simp [splitNl, ih, List.count_cons]
    · simp only [splitNl, if_neg h]
      cases hs : splitNl rest with
      | nil => exact absurd hs (splitNl_ne_nil rest)
      | cons p ps =>
        have : (p :: ps).length = rest.count 10 + 1 := hs ▸ ih
        simpa [List.count_cons, h] using this

theorem replace2_short (a b r : Nat) (s : List Nat)
    (h : ∀ (c d : Nat) (rest : List Nat), s = c :: d :: rest → False) :
    replace2 a b r s = s := by
  cases s with
  | nil => rfl
  | cons c t =>
    cases t with
    | nil => rfl
    | cons d rest => exact (h c d rest rfl).elim

theorem hasSub2_short (a b : Nat) (s : List Nat)
    (h : ∀ (c d : Nat) (rest : List Nat), s = c :: d :: rest → False) :
    hasSub2 a b s = false := by
  cases s with
  | nil => rfl
  | cons c t =>
    cases t with
    | nil => rfl
    | cons d rest => exact (h c d rest rfl).elim

theorem hasSub2_cons_false (a b : Nat) (c d : Nat) (rest : List Nat)
    (h : hasSub2 a b (c :: d :: rest) = false) :
    ¬(c = a ∧ d = b) ∧ hasSub2 a b (d :: rest) = false := by
  constructor
  · rintro ⟨h1, h2⟩
    simp [hasSub2, h1, h2] at h
  · revert h
    simp only [hasSub2, Bool.or_eq_false_iff]
    exact fun h => h.2

theorem hasSub2_tail (a b : Nat) (d : Nat) (rest : List Nat)
    (h : hasSub2 a b (d :: rest) = false) : hasSub2 a b rest = false := by
  cases rest with
  | nil => rfl
  | cons e t => exact (hasSub2_cons_false a b d e t h).2

theorem hasSub2_cons_of_ne (a b r : Nat) (hra : r ≠ a) (l : List Nat)
    (hl : hasSub2 a b l = false) : hasSub2 a b (r :: l) = false := by
  cases l with
  | nil => rfl
  | cons e t => simp [hasSub2, hra, hl]

/-- `str.replace` with a pattern that does not occur leaves the string
unchanged. -/
theorem replace2_id_of_no (a b r : Nat) :
    ∀ s, hasSub2 a b s = false → replace2 a b r s = s := by
  intro s
  induction s using replace2.induct a b r with
  | case1 c d rest hm ih =>
    intro h
    exact absurd hm (hasSub2_cons_false a b c d rest h).1
  | case2 c d rest hm ih =>
    intro h
    have h2 := (hasSub2_cons_false a b c d rest h).2
    simp [replace2, hm, ih h2]
  | case3 s hs =>
    intro _
    exact replace2_short a b r s hs

/-- Every code point of a replaced string is a code point of the original
string or the replacement character. -/
theorem replace2_mem (a b r : Nat) :
    ∀ s, ∀ c ∈ replace2 a b r s, c ∈ s ∨ c = r := by
  intro s
  induction s using replace2.induct a b r with
  | case1 c d rest hm ih =>
    intro x hx
    rw [replace2, if_pos hm] at hx
    rcases List.mem_cons.mp hx with hx | hx
    · exact Or.inr hx
    · rcases ih x hx with hx | hx
      · exact Or.inl (by simp [hx])
      · exact Or.inr hx
  | case2 c d rest hm ih =>
    intro x hx
    rw [replace2, if_neg hm] at hx
    rcases List.mem_cons.mp hx with hx | hx
    · exact Or.inl (by simp [hx])
    · rcases ih x hx with hx | hx
      · exact Or.inl (by simpa using Or.inr (List.mem_cons.mp hx))
      · exact Or.inr hx
  | case3 s hs =>
    intro x hx
    rw [replace2_short a b r s hs] at hx
    exact Or.inl hx

/-- After replacing the pattern `[a, b]` by a character that is neither `a`
nor `b`, the pattern no longer occurs. -/
theorem replace2_no_self (a b r : Nat) (hra : r ≠ a) (hrb : r ≠ b) :
    ∀ s, hasSub2 a b (replace2 a b r s) = false := by
  intro s
  induction s using replace2.induct a b r with
  | case1 c d rest hm ih =>
    rw [replace2, if_pos hm]
    exact hasSub2_cons_of_ne a b r hra _ ih
  | case2 c d rest hm ih =>
    rw [replace2, if_neg hm]
    cases rest with
    | nil => simpa [replace2, hasSub2] using fun h1 h2 => hm ⟨h1, h2⟩
    | cons e rest2 =>
      by_cases hm2 : d = a ∧ e = b
      · rw [replace2, if_pos hm2] at ih ⊢
        simp [hasSub2, hrb, ih]
      · rw [replace2, if_neg hm2] at ih ⊢
        simpa [hasSub2, ih] using fun h1 h2 => hm ⟨h1, h2⟩
  | case3 s hs =>
    rw [replace2_short a b r s hs]
    exact hasSub2_short a b s hs

/-- Replacing some pattern `[p, q]` by a character that is neither `a` nor
`b` cannot create an occurrence of `[a, b]`. -/
theorem replace2_keeps_no (a b p q r : Nat) (hra : r ≠ a) (hrb : r ≠ b) :
    ∀ s, hasSub2 a b s = false → hasSub2 a b (replace2 p q r s) = false := by
  intro s
  induction s using replace2.induct p q r with
  | case1 c d rest hm ih =>
    intro h
    rw [replace2, if_pos hm]
    have h2 := hasSub2_tail a b d rest (hasSub2_cons_false a b c d rest h).2
    exact hasSub2_cons_of_ne a b r hra _ (ih h2)
  | case2 c d rest hm ih =>
    intro h
    obtain ⟨hcd, htl⟩ := hasSub2_cons_false a b c d rest h
    rw [replace2, if_neg hm]
    cases rest with
    | nil => simpa [replace2, hasSub2] using fun h1 h2 => hcd ⟨h1, h2⟩
    | cons e rest2 =>
      by_cases hm2 : d = p ∧ e = q
      · rw [replace2, if_pos hm2] at ih ⊢
        simp [hasSub2, hrb, ih htl]
      · rw [replace2, if_neg hm2] at ih ⊢
        simpa [hasSub2, ih htl] using fun h1 h2 => hcd ⟨h1, h2⟩
  | case3 s hs =>
    intro h
    rw [replace2_short p q r s hs]
    exact h

theorem mem_removeSurrogates (s : List Nat) (c : Nat) (h : c ∈ removeSurrogates s) :
    c ∈ s ∧ isSurrogate c = false := by
  rw [removeSurrogates, List.mem_filter] at h
  exact ⟨h.1, by simpa using h.2⟩

theorem removeSurrogates_id (s : List Nat) (h : ∀ c ∈ s, isSurrogate c = false) :
    removeSurrogates s = s := by
  rw [removeSurrogates]
  exact List.filter_eq_self.mpr (fun c hc => by simpa using h c hc)

/-- The re-encoding step of the try-branch finds nothing to strip: the
surrogates were already removed and un-escaping introduces only newline
and tab. -/
theorem cleanPrimary_eq (s : List Nat) :
    cleanPrimary s =
      replace2 92 116 9 (replace2 92 110 10 (removeSurrogates s)) := by
  rw [cleanPrimary]
  apply removeSurrogates_id
  intro c hc
  rcases replace2_mem 92 116 9 _ c hc with hc | hc
  · rcases replace2_mem 92 110 10 _ c hc with hc | hc
    · exact (mem_removeSurrogates s c hc).2
    · subst hc; decide
  · subst hc; decide

/-- The try-branch of the sanitizer is idempotent: its output contains no
surrogate and no occurrence of either escape pattern, so a second pass
changes nothing. -/
theorem cleanPrimary_idem (s : List Nat) :
    cleanPrimary (cleanPrimary s) = cleanPrimary s := by
  have ht : cleanPrimary s = replace2 92 116 9 (replace2 92 110 10 (removeSurrogates s)) :=
    cleanPrimary_eq s
  have hsur : removeSurrogates (cleanPrimary s) = cleanPrimary s := by
    apply removeSurrogates_id
    intro c hc
    rw [ht] at hc
    rcases replace2_mem 92 116 9 _ c hc with hc | hc
    · rcases replace2_mem 92 110 10 _ c hc with hc | hc
      · exact (mem_removeSurrogates s c hc).2
      · subst hc; decide
    · subst hc; decide
  have hno110 : hasSub2 92 110 (cleanPrimary s) = false := by
    rw [ht]
    exact replace2_keeps_no 92 110 92 116 9 (by decide) (by decide) _
      (replace2_no_self 92 110 10 (by decide) (by decide) _)
  have hr110 : replace2 92 110 10 (cleanPrimary s) = cleanPrimary s :=
    replace2_id_of_no 92 110 10 _ hno110
  have hno116 : hasSub2 92 116 (cleanPrimary s) = false := by
    rw [ht]
    exact replace2_no_self 92 116 9 (by decide) (by decide) _
  have hr116 : replace2 92 116 9 (cleanPrimary s) = cleanPrimary s :=
    replace2_id_of_no 92 116 9 _ hno116
  calc cleanPrimary (cleanPrimary s)
      = removeSurrogates (replace2 92 116 9 (replace2 92 110 10
          (removeSurrogates (cleanPrimary s)))) := rfl
    _ = cleanPrimary s := by rw [hsur, hr110, hr116, hsur]

theorem cleanFallback_idem (s : List Nat) :
    cleanFallback (cleanFallback s) = cleanFallback s := by
  rw [cleanFallback, cleanFallback, List.map_map]
  apply List.map_congr_left
  intro c _
  by_cases h : c ≤ 0xFFFF <;> simp [h]

/-- Both branches of `clean_unicode_text` are idempotent; in particular the
second cleaning inside `extract_metadata` is a no-op on the text already
cleaned by the enrichment loop. -/
theorem clean_idem (ok : Bool) (s : List Nat) :
    clean_unicode_text ok (clean_unicode_text ok s) = clean_unicode_text ok s := by
  cases ok with
  | true => simp [clean_unicode_text, cleanPrimary_idem]
  | false => simp [clean_unicode_text, cleanFallback_idem]

/-- Service behaviours on which per-record enrichment falls back to defaults:
a raised call, an unparseable response, a parsed non-object, or an object
missing one of the three required keys. -/
def svcFailing : SvcResult → Bool
  | .err => true
  | .badJson => true
  | .ok (.vobj fs) => !(hasKey fs kLineCount && hasKey fs kLanguage && hasKey fs kTags)
  | .ok _ => true

/-- The potential `tags` value of a parsed response object only carries
string tags (so neither the batch-level set operations nor the
comma-join of the unification prompt can raise on them). -/
def tagsFieldOK (fs : Record) : Bool :=
  match dget fs kTags with
  | some (.varr els) => els.all isStr
  | some t => !truthy t || isStr t
  | none => true

/-- A well-formed service behaviour: if it is a parsed object, its keys are
distinct (true of every dict `json` produces) and its tags are strings. -/
def svcWF : SvcResult → Bool
  | .ok (.vobj fs) => keysNodup fs && tagsFieldOK fs
  | _ => true

/-- The service behaviour, if a parsed object, does not bind the key `k`. -/
def svcNoKey (svc : SvcResult) (k : List Nat) : Bool :=
  match svc with
  | .ok (.vobj fs) => !hasKey fs k
  | _ => true

/-- A well-formed input record: its `text` field exists and is a string. -/
def wfPost (p : Record) : Bool :=
  match dget p kText with
  | some (.vstr _) => true
  | _ => false

/-- Every code point of the string is a valid Unicode code point; this is
what being a value of Python's `str` type means in the embedding. -/
def validStr (s : List Nat) : Bool := s.all (fun c => c < 1114112)

def frStr : List Nat := str2cp "French"

def kTimestamp : List Nat := str2cp "timestamp"

/-- A record with the given text and tag list. -/
def mkPost (txt : String) (tags : List String) : Record :=
  [(kText, .vstr (str2cp txt)), (kTags, .varr (tags.map fun t => .vstr (str2cp t)))]

/-- A record holding only a text field. -/
def postHi : Record := [(kText, .vstr (str2cp "hi"))]

/-- A syntactically valid response whose language is neither English nor
Hinglish: it passes the key-presence validation untouched. -/
def svcFrench : SvcResult :=
  .ok (.vobj [(kLineCount, .vint 1), (kLanguage, .vstr frStr),
    (kTags, .varr [.vstr (str2cp "X")])])

/-- A syntactically valid response whose tags list contains a nested list:
it passes validation, and the batch-level tag collection later raises. -/
def svcNested : SvcResult :=
  .ok (.vobj [(kLineCount, .vint 1), (kLanguage, .vstr engStr),
    (kTags, .varr [.varr []])])

/-- A record carrying a caller-supplied timestamp field. -/
def postTs : Record := [(kText, .vstr (str2cp "hi")), (kTimestamp, .vstr (str2cp "t1"))]

/-- A valid response that also binds the caller's timestamp key. -/
def svcClobber : SvcResult :=
  .ok (.vobj [(kLineCount, .vint 1), (kLanguage, .vstr engStr),
    (kTags, .varr [.vstr (str2cp "X")]), (kTimestamp, .vstr (str2cp "t2"))])

/-- The unification mapping of the specification's merge scenario. -/
def mpScenario : List (Val × Val) :=
  [(.vstr (str2cp "Jobseekers"), .vstr (str2cp "Job Search")),
   (.vstr (str2cp "Job Hunting"), .vstr (str2cp "Job Search")),
   (.vstr (str2cp "Motivation"), .vstr (str2cp "Motivation"))]

theorem mget_id (ts : List Val) (t : Val) : mget (ts.map fun u => (u, u)) t = t := by
  induction ts with
  | nil => rfl
  | cons u ts ih =>
    by_cases h : u = t
    · subst h
      simp [mget, List.find?]
    · have hb : (u == t) = false := by simpa using h
      simp only [List.map_cons, mget, List.find?, hb] at ih ⊢
      exact ih

theorem mget_hashable (mp : List (Val × Val)) (t : Val)
    (hmp : mp.all (fun p => hashable p.2) = true) (ht : hashable t = true) :
    hashable (mget mp t) = true := by
  rw [mget]
  cases hf : mp.find? (fun p => p.1 == t) with
  | none => exact ht
  | some p =>
    have hm : p ∈ mp := List.mem_of_find?_eq_some hf
    exact (List.all_eq_true.mp hmp) p hm

theorem mapped_hashable (mp : List (Val × Val)) (xs : List Val)
    (hx : xs.all hashable = true) (hmp : mp.all (fun p => hashable p.2) = true) :
    (xs.map (mget mp)).all hashable = true := by
  rw [List.all_eq_true]
  intro v hv
  rw [List.mem_map] at hv
  obtain ⟨t, htm, rfl⟩ := hv
  exact mget_hashable mp t hmp ((List.all_eq_true.mp hx) t htm)

/-- The tag-rewriting step on a record whose tags are a list of hashable
tags, with a mapping whose values are hashable: it stores back the
deduplicated image of the tag list under the mapping. -/
theorem applyUnified_varr (mp : List (Val × Val)) (post : Record) (xs : List Val)
    (ht : dget post kTags = some (.varr xs))
    (hx : xs.all hashable = true)
    (hmp : mp.all (fun p => hashable p.2) = true) :
    applyUnified mp post = some (dset post kTags (.varr ((xs.map (mget mp)).dedup))) := by
  rw [applyUnified, ht]
  simp only [iterVal]
  rw [if_pos]
  rw [hx, mapped_hashable mp xs hx hmp]
  rfl

/-- The tag-rewriting step on a record with no tags field: `post.get` turns
the absent field into the empty list, and the record gains an empty tags
list. -/
theorem applyUnified_absent (mp : List (Val × Val)) (post : Record)
    (ht : dget post kTags = none) :
    applyUnified mp post = some (dset post kTags (.varr [])) := by
  rw [applyUnified, ht]
  rfl

theorem extract_badJson (ok : Bool) (v : Val) :
    extract_metadata ok .badJson v = .reraise := rfl

/-- On every failing service behaviour other than the re-raised parse
error, `extract_metadata` on a string returns the default metadata built
from its own (re-)cleaning of the argument. -/
theorem extract_meta_default (ok : Bool) (svc : SvcResult) (s : List Nat)
    (hf : svcFailing svc = true) (hnb : svc ≠ .badJson) :
    extract_metadata ok svc (.vstr s) =
      .meta (default_metadata (clean_unicode_text ok s)) := by
  cases svc with
  | err => rfl
  | badJson => exact absurd rfl hnb
  | ok v =>
    cases v with
    | vobj fs =>
      cases hB : (hasKey fs kLineCount && hasKey fs kLanguage && hasKey fs kTags) with
      | true => simp only [svcFailing, hB] at hf; simp at hf
      | false =>
        simp only [extract_metadata]
        rw [hB]
        simp only [Bool.false_eq_true, if_false]
        rfl
    | vnull => rfl
    | vbool b => rfl
    | vint n => rfl
    | vstr t => rfl
    | varr xs => rfl

/-- Per-record failure policy: on any parse error, validation error or
service exception, `enrichOne` keeps the record and writes the cleaned
text plus the three defaults — line count of the sanitized text, English,
the tag list holding General. -/
theorem enrichOne_fallback (ok : Bool) (svc : SvcResult) (post : Record) (s : List Nat)
    (hwf : dget post kText = some (.vstr s)) (hf : svcFailing svc = true) :
    enrichOne ok svc post =
      some (dset (dset (dset (dset post kText (.vstr (clean_unicode_text ok s)))
        kLineCount (.vint ((splitNl (clean_unicode_text ok s)).length : Int)))
        kLanguage (.vstr engStr)) kTags (.varr [.vstr genStr])) := by
  by_cases hb : svc = .badJson
  · subst hb
    simp only [enrichOne, hwf, cleanValue, extract_badJson]
  · rw [enrichOne, hwf]
    simp only [cleanValue]
    rw [extract_meta_default ok svc (clean_unicode_text ok s) hf hb, clean_idem]
    rfl

theorem wfPost_str (p : Record) (h : wfPost p = true) :
    ∃ s, dget p kText = some (.vstr s) := by
  rw [wfPost] at h
  cases hd : dget p kText with
  | none => rw [hd] at h; simp at h
  | some v =>
    cases v with
    | vstr s => exact ⟨s, rfl⟩
    | vnull => rw [hd] at h; simp at h
    | vbool b => rw [hd] at h; simp at h
    | vint n => rw [hd] at h; simp at h
    | varr xs => rw [hd] at h; simp at h
    | vobj fs => rw [hd] at h; simp at h

theorem svc_not_failing (svc : SvcResult) (h : svcFailing svc = false) :
    ∃ fs, svc = .ok (.vobj fs) ∧
      (hasKey fs kLineCount && hasKey fs kLanguage && hasKey fs kTags) = true := by
  cases svc with
  | err => simp [svcFailing] at h
  | badJson => simp [svcFailing] at h
  | ok v =>
    cases v with
    | vobj fs =>
      refine ⟨fs, rfl, ?_⟩
      cases hB : (hasKey fs kLineCount && hasKey fs kLanguage && hasKey fs kTags) with
      | true => rfl
      | false => simp [svcFailing, hB] at h
    | vnull => simp [svcFailing] at h
    | vbool b => simp [svcFailing] at h
    | vint n => simp [svcFailing] at h
    | vstr s => simp [svcFailing] at h
    | varr xs => simp [svcFailing] at h

/-- A validated response object is returned as the metadata, possibly with
its `tags` value normalized into a list in place. -/
theorem extract_valid (ok : Bool) (fs : Record) (v : Val)
    (hv : (hasKey fs kLineCount && hasKey fs kLanguage && hasKey fs kTags) = true) :
    ∃ fs2 els, extract_metadata ok (.ok (.vobj fs)) v = .meta fs2 ∧
      dget fs2 kTags = some (.varr els) ∧
      (fs2 = fs ∨ fs2 = dset fs kTags (.varr els)) ∧
      (tagsFieldOK fs = true → els.all isStr = true) := by
  have htk : hasKey fs kTags = true := by
    rcases Bool.and_eq_true_iff.mp hv with ⟨-, h2⟩
    exact h2
  rw [hasKey, Option.isSome_iff_exists] at htk
  obtain ⟨t, hdt⟩ := htk
  cases t with
  | varr els =>
    refine ⟨fs, els, ?_, hdt, Or.inl rfl, ?_⟩
    · simp only [extract_metadata]
      rw [hv, hdt]
      simp
    · intro hok
      rw [tagsFieldOK, hdt] at hok
      exact hok
  | vnull =>
    refine ⟨dset fs kTags (.varr [.vstr genStr]), [.vstr genStr], ?_,
      dget_dset_self fs kTags _, Or.inr rfl, fun _ => by decide⟩
    simp only [extract_metadata]
    rw [hv, hdt]
    simp [truthy]
  | vbool b =>
    cases b with
    | false =>
      refine ⟨dset fs kTags (.varr [.vstr genStr]), [.vstr genStr], ?_,
        dget_dset_self fs kTags _, Or.inr rfl, fun _ => by decide⟩
      simp only [extract_metadata]
      rw [hv, hdt]
      simp [truthy]
    | true =>
      refine ⟨dset fs kTags (.varr [.vbool true]), [.vbool true], ?_,
        dget_dset_self fs kTags _, Or.inr rfl, ?_⟩
      · simp only [extract_metadata]
        rw [hv, hdt]
        simp [truthy]
      · intro hok
        rw [tagsFieldOK, hdt] at hok
        simp [truthy, isStr] at hok
  | vint n =>
    by_cases hz : n = 0
    · subst hz
      refine ⟨dset fs kTags (.varr [.vstr genStr]), [.vstr genStr], ?_,
        dget_dset_self fs kTags _, Or.inr rfl, fun _ => by decide⟩
      simp only [extract_metadata]
      rw [hv, hdt]
      simp [truthy]
    · refine ⟨dset fs kTags (.varr [.vint n]), [.vint n], ?_,
        dget_dset_self fs kTags _, Or.inr rfl, ?_⟩
      · simp only [extract_metadata]
        rw [hv, hdt]
        simp [truthy, hz]
      · intro hok
        rw [tagsFieldOK, hdt] at hok
        simp [truthy, isStr, hz] at hok
  | vstr s =>
    by_cases hz : s = []
    · subst hz
      refine ⟨dset fs kTags (.varr [.vstr genStr]), [.vstr genStr], ?_,
        dget_dset_self fs kTags _, Or.inr rfl, fun _ => by decide⟩
      simp only [extract_metadata]
      rw [hv, hdt]
      simp [truthy]
    · refine ⟨dset fs kTags (.varr [.vstr s]), [.vstr s], ?_,
        dget_dset_self fs kTags _, Or.inr rfl, fun _ => rfl⟩
      simp only [extract_metadata]
      rw [hv, hdt]
      simp [truthy, hz]
  | vobj gs =>
    by_cases hz : gs = []
    · subst hz
      refine ⟨dset fs kTags (.varr [.vstr genStr]), [.vstr genStr], ?_,
        dget_dset_self fs kTags _, Or.inr rfl, fun _ => by decide⟩
      simp only [extract_metadata]
      rw [hv, hdt]
      simp [truthy]
    · refine ⟨dset fs kTags (.varr [.vobj gs]), [.vobj gs], ?_,
        dget_dset_self fs kTags _, Or.inr rfl, ?_⟩
      · simp only [extract_metadata]
        rw [hv, hdt]
        simp [truthy, hz]
      · intro hok
        rw [tagsFieldOK, hdt] at hok
        simp [truthy, hz, isStr] at hok

/-- Enrichment of a well-formed record under a well-formed service
behaviour always yields a record with the three metadata fields present,
`tags` being a list of string tags. -/
theorem enrichOne_good (ok : Bool) (svc : SvcResult) (post : Record)
    (hwf : wfPost post = true) (hsvc : svcWF svc = true) :
    ∃ r, enrichOne ok svc post = some r ∧
      hasKey r kLineCount = true ∧ hasKey r kLanguage = true ∧
      ∃ xs, dget r kTags = some (.varr xs) ∧ xs.all isStr = true := by
  obtain ⟨s, hs⟩ := wfPost_str post hwf
  by_cases hfail : svcFailing svc = true
  · rw [enrichOne_fallback ok svc post s hs hfail]
    obtain ⟨h1, h2, h3⟩ := dget_std3 (dset post kText (.vstr (clean_unicode_text ok s)))
      (.vint ((splitNl (clean_unicode_text ok s)).length : Int)) (.vstr engStr)
      (.varr [.vstr genStr])
    exact ⟨_, rfl, by rw [hasKey, h1]; rfl, by rw [hasKey, h2]; rfl,
      [.vstr genStr], h3, by decide⟩
  · obtain ⟨fs, rfl, hv⟩ := svc_not_failing svc (Bool.not_eq_true _ ▸ hfail)
    have hnd : keysNodup fs = true ∧ tagsFieldOK fs = true := by
      simpa [svcWF, Bool.and_eq_true] using hsvc
    obtain ⟨fs2, els, hex, hdt2, hshape, hhash⟩ := extract_valid ok fs (cleanValue ok (.vstr s)) hv
    have htk : hasKey fs kTags = true := (Bool.and_eq_true_iff.mp hv).2
    have hlc : hasKey fs kLineCount = true :=
      (Bool.and_eq_true_iff.mp (Bool.and_eq_true_iff.mp hv).1).1
    have hlg : hasKey fs kLanguage = true :=
      (Bool.and_eq_true_iff.mp (Bool.and_eq_true_iff.mp hv).1).2
    have hnd2 : keysNodup fs2 = true := by
      rcases hshape with rfl | rfl
      · exact hnd.1
      · exact keysNodup_dset fs kTags _ htk hnd.1
    have hlc2 : hasKey fs2 kLineCount = true := by
      rcases hshape with rfl | rfl
      · exact hlc
      · rw [hasKey_dset_ne fs kLineCount kTags _ (Ne.symm keys_ne_lc_tags)]; exact hlc
    have hlg2 : hasKey fs2 kLanguage = true := by
      rcases hshape with rfl | rfl
      · exact hlg
      · rw [hasKey_dset_ne fs kLanguage kTags _ (Ne.symm keys_ne_lang_tags)]; exact hlg
    have htk2 : hasKey fs2 kTags = true := by rw [hasKey, hdt2]; rfl
    refine ⟨dmerge (dset post kText (cleanValue ok (.vstr s))) fs2, ?_, ?_, ?_, els, ?_, hhash hnd.2⟩
    · simp only [enrichOne, hs]
      rw [hex]
    · rw [hasKey_dmerge, hlc2, Bool.or_true]
    · rw [hasKey_dmerge, hlg2, Bool.or_true]
    · rw [dget_dmerge_of_key _ _ _ hnd2 htk2, hdt2]

/-- Fields other than `text`, `line_count`, `language` and `tags` that the
service response does not bind are unchanged by enrichment. -/
theorem enrichOne_frame (ok : Bool) (svc : SvcResult) (post : Record) (s k : List Nat)
    (hwf : dget post kText = some (.vstr s))
    (hk1 : k ≠ kText) (hk2 : k ≠ kLineCount) (hk3 : k ≠ kLanguage) (hk4 : k ≠ kTags)
    (hsk : svcNoKey svc k = true) :
    ∀ r, enrichOne ok svc post = some r → dget r k = dget post k := by
  intro r hr
  by_cases hfail : svcFailing svc = true
  · rw [enrichOne_fallback ok svc post s hwf hfail] at hr
    obtain rfl := Option.some_injective _ hr.symm
    rw [dget_dset_ne _ _ _ _ (Ne.symm hk4), dget_dset_ne _ _ _ _ (Ne.symm hk3),
      dget_dset_ne _ _ _ _ (Ne.symm hk2), dget_dset_ne _ _ _ _ (Ne.symm hk1)]
  · obtain ⟨fs, rfl, hv⟩ := svc_not_failing svc (Bool.not_eq_true _ ▸ hfail)
    have hfk : hasKey fs k = false := by
      have := hsk
      simp only [svcNoKey, Bool.not_eq_eq_eq_not, Bool.not_true] at this
      exact this
    obtain ⟨fs2, els, hex, hdt2, hshape, -⟩ := extract_valid ok fs (cleanValue ok (.vstr s)) hv
    have hfk2 : hasKey fs2 k = false := by
      rcases hshape with rfl | rfl
      · exact hfk
      · rw [hasKey_dset_ne fs k kTags _ (Ne.symm hk4)]; exact hfk
    simp only [enrichOne, hwf] at hr
    rw [hex] at hr
    obtain rfl := Option.some_injective _ hr.symm
    rw [dget_dmerge_of_no_key _ _ _ hfk2, dget_dset_ne _ _ _ _ (Ne.symm hk1)]

theorem enrichList_good (ok : Bool) (svc : Nat → SvcResult)
    (hsvc : ∀ j, svcWF (svc j) = true) :
    ∀ (posts : List Record) (i : Nat), (∀ p ∈ posts, wfPost p = true) →
    ∃ out, enrichList ok svc i posts = some out ∧ out.length = posts.length ∧
      ∀ r ∈ out, hasKey r kLineCount = true ∧ hasKey r kLanguage = true ∧
        ∃ xs, dget r kTags = some (.varr xs) ∧ xs.all isStr = true := by
  intro posts
  induction posts with
  | nil => exact fun i _ => ⟨[], rfl, rfl, by simp⟩
  | cons p ps ih =>
    intro i hwf
    obtain ⟨r, hr, hr1, hr2, hr3⟩ := enrichOne_good ok (svc i) p (hwf p (by simp)) (hsvc i)
    obtain ⟨out, hout, hlen, hall⟩ := ih (i + 1) (fun q hq => hwf q (by simp [hq]))
    refine ⟨r :: out, ?_, by simp [hlen], ?_⟩
    · rw [enrichList, hr, hout]
    · intro q hq
      rcases List.mem_cons.mp hq with rfl | hq
      · exact ⟨hr1, hr2, hr3⟩
      · exact hall q hq

theorem tagsOfRecord_hashable (r : Record) (h : tagsHashableOK r = true) :
    (tagsOfRecord r).all hashable = true := by
  rw [tagsOfRecord]
  cases hd : dget r kTags with
  | none => rfl
  | some v =>
    cases v with
    | varr xs =>
      rw [tagsHashableOK, hd] at h
      exact h
    | vnull => rfl
    | vbool b => rfl
    | vint n => rfl
    | vstr s => rfl
    | vobj fs => rfl

theorem fold_tags_hashable :
    ∀ (posts : List Record) (acc : List Val),
      (∀ r ∈ posts, tagsHashableOK r = true) → acc.all hashable = true →
      (posts.foldl (fun acc p => acc ++ tagsOfRecord p) acc).all hashable = true := by
  intro posts
  induction posts with
  | nil => exact fun acc _ h => h
  | cons p ps ih =>
    intro acc hps hacc
    rw [List.foldl_cons]
    apply ih _ (fun r hr => hps r (by simp [hr]))
    rw [List.all_append, hacc, tagsOfRecord_hashable p (hps p (by simp))]
    rfl

theorem collectTags_good (posts : List Record)
    (h : ∀ r ∈ posts, tagsHashableOK r = true) :
    ∃ uniq, collectTags posts = some uniq ∧ uniq.all hashable = true := by
  have hall : posts.all tagsHashableOK = true := List.all_eq_true.mpr h
  rw [collectTags, if_pos hall]
  refine ⟨_, rfl, ?_⟩
  apply List.all_eq_true.mpr
  intro t ht
  exact List.all_eq_true.mp (fold_tags_hashable posts [] h rfl) t (List.mem_dedup.mp ht)

theorem identity_map_hashable (uniq : List Val) (hu : uniq.all hashable = true) :
    (uniq.map fun t => (t, t)).all (fun p => hashable p.2) = true := by
  apply List.all_eq_true.mpr
  intro p hp
  rw [List.mem_map] at hp
  obtain ⟨t, ht, rfl⟩ := hp
  exact List.all_eq_true.mp hu t ht

theorem isStr_hashable (t : Val) (h : isStr t = true) : hashable t = true := by
  cases t with
  | vstr s => rfl
  | vnull => rfl
  | vbool b => rfl
  | vint n => rfl
  | varr xs => exact Bool.noConfusion h
  | vobj fs => exact Bool.noConfusion h

theorem all_isStr_hashable (xs : List Val) (h : xs.all isStr = true) :
    xs.all hashable = true := by
  rw [List.all_eq_true] at h ⊢
  exact fun t ht => isStr_hashable t (h t ht)

theorem fold_tags_str :
    ∀ (posts : List Record) (acc : List Val),
      (∀ r ∈ posts, (tagsOfRecord r).all isStr = true) → acc.all isStr = true →
      (posts.foldl (fun acc p => acc ++ tagsOfRecord p) acc).all isStr = true := by
  intro posts
  induction posts with
  | nil => exact fun acc _ h => h
  | cons p ps ih =>
    intro acc hps hacc
    rw [List.foldl_cons]
    apply ih _ (fun r hr => hps r (by simp [hr]))
    rw [List.all_append, hacc, hps p (by simp)]
    rfl

theorem collectTags_all_str (posts : List Record) (uniq : List Val)
    (hc : collectTags posts = some uniq)
    (h : ∀ r ∈ posts, (tagsOfRecord r).all isStr = true) :
    uniq.all isStr = true := by
  rw [collectTags] at hc
  by_cases hall : posts.all tagsHashableOK = true
  · rw [if_pos hall] at hc
    obtain rfl := Option.some_injective _ hc.symm
    apply List.all_eq_true.mpr
    intro t ht
    exact List.all_eq_true.mp (fold_tags_str posts [] h rfl) t (List.mem_dedup.mp ht)
  · rw [if_neg hall] at hc
    cases hc

/-- On every failing unification service behaviour, once the collected
tags are strings (the comma-join preceding the call requires this), the
returned mapping is the identity over the collected tags. -/
theorem unifyFromTags_id (usvc : USvc) (uniq : List Val)
    (hu : usvc = USvc.err ∨ usvc = USvc.badJson) (hs : uniq.all isStr = true) :
    unifyFromTags usvc uniq = some (uniq.map fun t => (t, t)) := by
  by_cases he : uniq.isEmpty = true
  · rw [unifyFromTags, if_pos he]
    cases uniq with
    | nil => rfl
    | cons t ts => exact absurd he (by simp)
  · rw [unifyFromTags, if_neg he, if_pos hs]
    rcases hu with rfl | rfl
    · rfl
    · rfl

/-- On a batch of records whose tags are lists of strings, the unification
step returns a mapping, and every value of that mapping is hashable
(parsed objects with unhashable values fall back to the identity
mapping). -/
theorem get_unified_tags_good (usvc : USvc) (posts : List Record)
    (h : ∀ r ∈ posts, ∃ xs, dget r kTags = some (.varr xs) ∧ xs.all isStr = true) :
    ∃ mp, get_unified_tags usvc posts = some mp ∧
      mp.all (fun p => hashable p.2) = true := by
  have hth : ∀ r ∈ posts, tagsHashableOK r = true := by
    intro r hr
    obtain ⟨xs, h1, h2⟩ := h r hr
    rw [tagsHashableOK, h1]
    exact all_isStr_hashable xs h2
  have hts : ∀ r ∈ posts, (tagsOfRecord r).all isStr = true := by
    intro r hr
    obtain ⟨xs, h1, h2⟩ := h r hr
    rw [tagsOfRecord, h1]
    exact h2
  obtain ⟨uniq, hc, hu⟩ := collectTags_good posts hth
  have hstr : uniq.all isStr = true := collectTags_all_str posts uniq hc hts
  have hg : get_unified_tags usvc posts = unifyFromTags usvc uniq := by
    rw [get_unified_tags, hc]
  by_cases he : uniq.isEmpty = true
  · refine ⟨[], ?_, rfl⟩
    rw [hg, unifyFromTags, if_pos he]
  · refine ⟨mappingFor usvc uniq, ?_, ?_⟩
    · rw [hg, unifyFromTags, if_neg he, if_pos hstr]
    · have hid := identity_map_hashable uniq hu
      cases usvc with
      | err => exact hid
      | badJson => exact hid
      | ok v =>
        cases v with
        | vobj m =>
          show (if (m.all fun p => hashable p.2) = true
            then List.map (fun p => (Val.vstr p.1, p.2)) m
            else List.map (fun t => (t, t)) uniq).all (fun p => hashable p.2) = true
          by_cases hm : m.all (fun p => hashable p.2) = true
          · rw [if_pos hm]
            apply List.all_eq_true.mpr
            intro p hp
            rw [List.mem_map] at hp
            obtain ⟨q, hq, rfl⟩ := hp
            exact List.all_eq_true.mp hm q hq
          · rw [if_neg hm]
            exact hid
        | vnull => exact hid
        | vbool b => exact hid
        | vint n => exact hid
        | vstr s => exact hid
        | varr xs => exact hid

theorem applyList_good (mp : List (Val × Val))
    (hmp : mp.all (fun p => hashable p.2) = true) :
    ∀ rs : List Record,
      (∀ r ∈ rs, hasKey r kLineCount = true ∧ hasKey r kLanguage = true ∧
        ∃ xs, dget r kTags = some (.varr xs) ∧ xs.all hashable = true) →
      ∃ out, applyList mp rs = some out ∧ out.length = rs.length ∧
        ∀ q ∈ out, hasKey q kLineCount = true ∧ hasKey q kLanguage = true ∧
          ∃ ys, dget q kTags = some (.varr ys) := by
  intro rs
  induction rs with
  | nil => exact fun _ => ⟨[], rfl, rfl, by simp⟩
  | cons r rs ih =>
    intro hin
    obtain ⟨h1, h2, xs, h3, h4⟩ := hin r (by simp)
    obtain ⟨out, hout, hlen, hall⟩ := ih (fun q hq => hin q (by simp [hq]))
    have happ := applyUnified_varr mp r xs h3 h4 hmp
    refine ⟨dset r kTags (.varr ((xs.map (mget mp)).dedup)) :: out, ?_, by simp [hlen], ?_⟩
    · rw [applyList, happ, hout]
    · intro q hq
      rcases List.mem_cons.mp hq with rfl | hq
      · refine ⟨?_, ?_, _, dget_dset_self r kTags _⟩
        · rw [hasKey_dset_ne r kLineCount kTags _ (Ne.symm keys_ne_lc_tags)]
          exact h1
        · rw [hasKey_dset_ne r kLanguage kTags _ (Ne.symm keys_ne_lang_tags)]
          exact h2
      · exact hall q hq

theorem collectTags_hashable (posts : List Record) (uniq : List Val)
    (hc : collectTags posts = some uniq) : uniq.all hashable = true := by
  rw [collectTags] at hc
  by_cases hall : posts.all tagsHashableOK = true
  · rw [if_pos hall] at hc
    obtain rfl := Option.some_injective _ hc.symm
    apply List.all_eq_true.mpr
    intro t ht
    exact List.all_eq_true.mp
      (fold_tags_hashable posts [] (List.all_eq_true.mp hall) rfl) t (List.mem_dedup.mp ht)
  · rw [if_neg hall] at hc
    cases hc

theorem applyUnified_frame (mp : List (Val × Val)) (post : Record) (k : List Nat)
    (hk : k ≠ kTags) :
    ∀ r2, applyUnified mp post = some r2 → dget r2 k = dget post k := by
  intro r2 h
  simp only [applyUnified] at h
  split at h
  · cases h
  · split at h
    · obtain rfl := Option.some_injective _ h.symm
      rw [dget_dset_ne _ _ _ _ (Ne.symm hk)]
    · cases h

theorem mget_nil (t : Val) : mget [] t = t := rfl

/-- Claim C2: on any parse error, validation error or service-call
exception, per-record enrichment raises nothing to the caller: the record
is kept, with line_count the number of newline-delimited segments of the
sanitized text (its newline count plus one), language English and tags
the one-element list General. -/
theorem claimC2_fallback (ok : Bool) (svc : SvcResult) (post : Record) (s : List Nat)
    (hwf : dget post kText = some (.vstr s)) (hfail : svcFailing svc = true) :
    ∃ r, enrichOne ok svc post = some r ∧
      dget r kLineCount = some (.vint ((splitNl (clean_unicode_text ok s)).length : Int)) ∧
      (splitNl (clean_unicode_text ok s)).length = (clean_unicode_text ok s).count 10 + 1 ∧
      dget r kLanguage = some (.vstr engStr) ∧
      dget r kTags = some (.varr [.vstr genStr]) := by
  rw [enrichOne_fallback ok svc post s hwf hfail]
  obtain ⟨h1, h2, h3⟩ := dget_std3 (dset post kText (.vstr (clean_unicode_text ok s)))
    (.vint ((splitNl (clean_unicode_text ok s)).length : Int)) (.vstr engStr)
    (.varr [.vstr genStr])
  exact ⟨_, rfl, h1, splitNl_length _, h2, h3⟩

theorem claimC2_witness :
    ∃ r, enrichOne true .badJson postHi = some r ∧
      dget r kLineCount =
        some (.vint ((splitNl (clean_unicode_text true (str2cp "hi"))).length : Int)) ∧
      (splitNl (clean_unicode_text true (str2cp "hi"))).length =
        (clean_unicode_text true (str2cp "hi")).count 10 + 1 ∧
      dget r kLanguage = some (.vstr engStr) ∧
      dget r kTags = some (.varr [.vstr genStr]) :=
  claimC2_fallback true .badJson postHi (str2cp "hi") (by decide) rfl

/-- Claim C3: applying a unification mapping rewrites a record's tag list
to the set image under `mapping.get(tag, tag)` — mapped tags replaced,
unmapped tags passed through, duplicates collapsed. -/
theorem claimC3_unify (mp : List (Val × Val)) (post : Record) (xs : List Val)
    (ht : dget post kTags = some (.varr xs))
    (hx : xs.all hashable = true)
    (hmp : mp.all (fun p => hashable p.2) = true) :
    ∃ post2 ys, applyUnified mp post = some post2 ∧
      dget post2 kTags = some (.varr ys) ∧ ys.Nodup ∧
      ∀ u, u ∈ ys ↔ ∃ t, t ∈ xs ∧ u = mget mp t := by
  refine ⟨_, (xs.map (mget mp)).dedup, applyUnified_varr mp post xs ht hx hmp,
    dget_dset_self post kTags _, List.nodup_dedup _, ?_⟩
  intro u
  rw [List.mem_dedup, List.mem_map]
  constructor
  · rintro ⟨t, htm, rfl⟩
    exact ⟨t, htm, rfl⟩
  · rintro ⟨t, htm, rfl⟩
    exact ⟨t, htm, rfl⟩

theorem claimC3_witness :
    (∃ post2 ys, applyUnified mpScenario (mkPost "p1" ["Jobseekers"]) = some post2 ∧
      dget post2 kTags = some (.varr ys) ∧ ys.Nodup ∧
      ∀ u, u ∈ ys ↔ ∃ t, t ∈ [Val.vstr (str2cp "Jobseekers")] ∧ u = mget mpScenario t) ∧
    applyList mpScenario
      [mkPost "p1" ["Jobseekers"], mkPost "p2" ["Job Hunting"], mkPost "p3" ["Motivation"]] =
      some [dset (mkPost "p1" ["Jobseekers"]) kTags (.varr [.vstr (str2cp "Job Search")]),
        dset (mkPost "p2" ["Job Hunting"]) kTags (.varr [.vstr (str2cp "Job Search")]),
        dset (mkPost "p3" ["Motivation"]) kTags (.varr [.vstr (str2cp "Motivation")])] :=
  ⟨claimC3_unify mpScenario (mkPost "p1" ["Jobseekers"]) [Val.vstr (str2cp "Jobseekers")]
    (by decide) (by decide) (by decide), by decide⟩

/-- Claim C4: when the unification request was actually issued — that is,
the collected distinct tags are strings, as the comma-join preceding the
service call requires — and the response is unparseable or the call
raises, the unifier returns the identity mapping over the collected
distinct tags, and applying it changes no record's set of tags. -/
theorem claimC4_identity (usvc : USvc) (posts : List Record) (uniq : List Val)
    (hu : usvc = USvc.err ∨ usvc = USvc.badJson)
    (hc : collectTags posts = some uniq)
    (hs : uniq.all isStr = true) :
    get_unified_tags usvc posts = some (uniq.map fun t => (t, t)) ∧
    ∀ post xs, dget post kTags = some (.varr xs) → xs.all hashable = true →
      ∃ post2 ys, applyUnified (uniq.map fun t => (t, t)) post = some post2 ∧
        dget post2 kTags = some (.varr ys) ∧ ∀ u, u ∈ ys ↔ u ∈ xs := by
  constructor
  · have hg : get_unified_tags usvc posts = unifyFromTags usvc uniq := by
      rw [get_unified_tags, hc]
    rw [hg, unifyFromTags_id usvc uniq hu hs]
  · intro post xs ht hx
    have hid := identity_map_hashable uniq (all_isStr_hashable uniq hs)
    refine ⟨_, (xs.map (mget (uniq.map fun t => (t, t)))).dedup,
      applyUnified_varr _ post xs ht hx hid, dget_dset_self post kTags _, ?_⟩
    intro u
    have hxs : xs.map (mget (uniq.map fun t => (t, t))) = xs := by
      calc xs.map (mget (uniq.map fun t => (t, t)))
          = xs.map id := List.map_congr_left (fun t _ => mget_id uniq t)
        _ = xs := List.map_id xs
    rw [hxs, List.mem_dedup]

theorem claimC4_witness :
    get_unified_tags USvc.badJson [mkPost "p" ["A"]] =
      some ([Val.vstr (str2cp "A")].map fun t => (t, t)) ∧
    ∀ post xs, dget post kTags = some (.varr xs) → xs.all hashable = true →
      ∃ post2 ys, applyUnified ([Val.vstr (str2cp "A")].map fun t => (t, t)) post = some post2 ∧
        dget post2 kTags = some (.varr ys) ∧ ∀ u, u ∈ ys ↔ u ∈ xs :=
  claimC4_identity USvc.badJson [mkPost "p" ["A"]] [Val.vstr (str2cp "A")]
    (Or.inr rfl) (by decide) (by decide)

/-- Claim C5 counterexample: on a batch with no tags the unifier does
return the empty mapping whatever the service would do, but the
tag-rewriting loop then runs `post.get('tags', [])` on every record, so
a record with an absent tags field does not stay absent: it gains an
empty tags list. -/
theorem claimC5_counterexample :
    dget postHi kTags = none ∧
    get_unified_tags USvc.badJson [postHi] = some [] ∧
    get_unified_tags (USvc.ok (.vobj [(str2cp "A", .vstr (str2cp "B"))])) [postHi] = some [] ∧
    applyUnified [] postHi = some (postHi ++ [(kTags, Val.varr [])]) ∧
    dget (postHi ++ [(kTags, Val.varr [])]) kTags = some (.varr []) := by decide

/-- Claim C5 (amended): with no tags anywhere in the batch the unifier
returns the empty mapping without calling the service; applying it rewrites
each record's tags to the deduplicated list of its current tags, so no
record's set of tags changes and an empty tag list stays empty — but a
record with an absent tags field gains an empty tags list. -/
theorem claimC5_amended (usvc : USvc) (posts : List Record)
    (hc : collectTags posts = some []) :
    get_unified_tags usvc posts = some [] ∧
    (∀ post, dget post kTags = none →
      applyUnified [] post = some (dset post kTags (.varr []))) ∧
    (∀ post xs, dget post kTags = some (.varr xs) → xs.all hashable = true →
      ∃ post2 ys, applyUnified [] post = some post2 ∧
        dget post2 kTags = some (.varr ys) ∧ ∀ u, u ∈ ys ↔ u ∈ xs) := by
  refine ⟨?_, ?_, ?_⟩
  · rw [get_unified_tags, hc]
    exact rfl
  · intro post ht
    exact applyUnified_absent [] post ht
  · intro post xs ht hx
    refine ⟨_, (xs.map (mget [])).dedup, applyUnified_varr [] post xs ht hx rfl,
      dget_dset_self post kTags _, ?_⟩
    intro u
    have hxs : xs.map (mget []) = xs := by
      calc xs.map (mget [])
          = xs.map id := List.map_congr_left (fun t _ => mget_nil t)
        _ = xs := List.map_id xs
    rw [hxs, List.mem_dedup]

theorem claimC5_witness :
    get_unified_tags USvc.badJson [postHi] = some [] ∧
    (∀ post, dget post kTags = none →
      applyUnified [] post = some (dset post kTags (.varr []))) ∧
    (∀ post xs, dget post kTags = some (.varr xs) → xs.all hashable = true →
      ∃ post2 ys, applyUnified [] post = some post2 ∧
        dget post2 kTags = some (.varr ys) ∧ ∀ u, u ∈ ys ↔ u ∈ xs) :=
  claimC5_amended USvc.badJson [postHi] (by decide)

/-- Claim C6 counterexample: a parsed service response carrying an extra
`timestamp` key overwrites the caller-supplied timestamp in the merged
output record (`post | metadata` lets metadata win on every collision). -/
theorem claimC6_counterexample :
    dget postTs kTimestamp = some (.vstr (str2cp "t1")) ∧
    (process_posts true (fun _ => svcClobber) USvc.err (.loaded [postTs])).length = 1 ∧
    dget (process_posts true (fun _ => svcClobber) USvc.err (.loaded [postTs])).headI
      kTimestamp = some (.vstr (str2cp "t2")) ∧
    Val.vstr (str2cp "t2") ≠ Val.vstr (str2cp "t1") := by decide

/-- Claim C6 (amended): a caller-supplied field other than text,
line_count, language and tags that the parsed service response does not
itself bind passes through enrichment and tag unification unchanged. -/
theorem claimC6_frame (ok : Bool) (svc : SvcResult) (mp : List (Val × Val))
    (post : Record) (s k : List Nat)
    (hwf : dget post kText = some (.vstr s))
    (hk1 : k ≠ kText) (hk2 : k ≠ kLineCount) (hk3 : k ≠ kLanguage) (hk4 : k ≠ kTags)
    (hsk : svcNoKey svc k = true) :
    ∀ r r2, enrichOne ok svc post = some r → applyUnified mp r = some r2 →
      dget r2 k = dget post k := by
  intro r r2 hr hr2
  rw [applyUnified_frame mp r k hk4 r2 hr2]
  exact enrichOne_frame ok svc post s k hwf hk1 hk2 hk3 hk4 hsk r hr

def svcGood : SvcResult :=
  .ok (.vobj [(kLineCount, .vint 1), (kLanguage, .vstr engStr),
    (kTags, .varr [.vstr (str2cp "X")])])

def recC6 : Record :=
  [(kText, .vstr (str2cp "hi")), (kTimestamp, .vstr (str2cp "t1")),
   (kLineCount, .vint 1), (kLanguage, .vstr engStr), (kTags, .varr [.vstr (str2cp "X")])]

theorem claimC6_witness : dget recC6 kTimestamp = dget postTs kTimestamp :=
  claimC6_frame true svcGood [] postTs (str2cp "hi") kTimestamp (by decide) (by decide)
    (by decide) (by decide) (by decide) (by decide) recC6 recC6 (by decide) (by decide)

/-- Claim C7: on any string the sanitizer terminates without raising and
returns a string — whichever branch runs, the result is a value the
embedding recognises as a string of valid code points, and it is exactly
the try-branch's or the except-branch's output. -/
theorem claimC7_total (ok : Bool) (s : List Nat) (h : validStr s = true) :
    validStr (clean_unicode_text ok s) = true ∧
    (clean_unicode_text ok s = cleanPrimary s ∨
     clean_unicode_text ok s = cleanFallback s) := by
  refine ⟨?_, ?_⟩
  · rw [validStr, List.all_eq_true] at h ⊢
    intro c hc
    cases ok with
    | true =>
      have hc2 : c ∈ cleanPrimary s := hc
      rw [cleanPrimary] at hc2
      obtain ⟨hc3, -⟩ := mem_removeSurrogates _ _ hc2
      rcases replace2_mem 92 116 9 _ c hc3 with hc4 | rfl
      · rcases replace2_mem 92 110 10 _ c hc4 with hc5 | rfl
        · exact h c (mem_removeSurrogates s c hc5).1
        · decide
      · decide
    | false =>
      have hc2 : c ∈ cleanFallback s := hc
      rw [cleanFallback, List.mem_map] at hc2
      obtain ⟨x, hx, rfl⟩ := hc2
      by_cases hb : x ≤ 0xFFFF
      · rw [if_pos hb]
        exact h x hx
      · rw [if_neg hb]
        decide
  · cases ok with
    | true => exact Or.inl rfl
    | false => exact Or.inr rfl

theorem claimC7_witness :
    validStr (clean_unicode_text true (str2cp "hi")) = true ∧
    (clean_unicode_text true (str2cp "hi") = cleanPrimary (str2cp "hi") ∨
     clean_unicode_text true (str2cp "hi") = cleanFallback (str2cp "hi")) :=
  claimC7_total true (str2cp "hi") (by decide)

/-- Claim C8: the sanitizer is the identity on already-clean ASCII text —
text with no surrogate and no occurrence of the literal backslash-n or
backslash-t escape sequences — on both of its branches, hence idempotent
on such input. -/
theorem claimC8_ascii_id (s : List Nat)
    (h1 : s.all (fun c => c ≤ 127) = true)
    (h2 : hasSub2 92 110 s = false) (h3 : hasSub2 92 116 s = false) :
    clean_unicode_text true s = s ∧ clean_unicode_text false s = s := by
  have hns : ∀ c ∈ s, isSurrogate c = false := by
    intro c hc
    have hb : c ≤ 127 := by simpa using List.all_eq_true.mp h1 c hc
    rw [isSurrogate]
    have : ¬(0xD800 ≤ c) := by omega
    simp [this]
  constructor
  · show cleanPrimary s = s
    rw [cleanPrimary, removeSurrogates_id s hns, replace2_id_of_no _ _ _ _ h2,
      replace2_id_of_no _ _ _ _ h3, removeSurrogates_id s hns]
  · show cleanFallback s = s
    rw [cleanFallback]
    have hid : ∀ c ∈ s, (if c ≤ 0xFFFF then c else 32) = id c := by
      intro c hc
      have hb : c ≤ 127 := by simpa using List.all_eq_true.mp h1 c hc
      rw [if_pos (by omega)]
      rfl
    rw [List.map_congr_left hid, List.map_id]

theorem claimC8_witness :
    clean_unicode_text true (str2cp "Hello world") = str2cp "Hello world" ∧
    clean_unicode_text false (str2cp "Hello world") = str2cp "Hello world" :=
  claimC8_ascii_id (str2cp "Hello world") (by decide) (by decide) (by decide)

/-- Claim C9: a missing input file or top-level JSON that fails to parse is
caught by the pipeline, which returns the empty collection instead of
propagating the error. -/
theorem claimC9_load_errors (ok : Bool) (svc : Nat → SvcResult) (usvc : USvc) :
    process_posts ok svc usvc .fileNotFound = [] ∧
    process_posts ok svc usvc .badJson = [] :=
  ⟨rfl, rfl⟩

/-- Claim C10: the sanitizer returns any non-string argument unchanged
without raising — the `isinstance` guard returns it before the cleaning
passes run. -/
theorem claimC10_non_string (ok : Bool) (v : Val) (h : isStr v = false) :
    cleanValue ok v = v := by
  cases v with
  | vstr s => rw [isStr] at h; cases h
  | vnull => rfl
  | vbool b => rfl
  | vint n => rfl
  | varr xs => rfl
  | vobj fs => rfl

theorem claimC10_witness : cleanValue true (.vint 3) = .vint 3 :=
  claimC10_non_string true (.vint 3) rfl

def svcEmptyTags : SvcResult :=
  .ok (.vobj [(kLineCount, .vint 1), (kLanguage, .vstr engStr), (kTags, .varr [])])

/-- A syntactically valid response whose tags list contains an integer:
it passes validation and the tags are hashable, but the comma-join of the
unification prompt later raises on the non-string tag. -/
def svcIntTags : SvcResult :=
  .ok (.vobj [(kLineCount, .vint 1), (kLanguage, .vstr engStr),
    (kTags, .varr [.vint 5])])

/-- Claim C1 counterexample: the pipeline validates only key presence, so a
parsed response may put any value under `language` (here French, outside
the claimed closed set) or an empty list under `tags`; a response whose
tags contain an unhashable element crashes tag collection, and one whose
tags contain a non-string hashable element (an int) crashes the comma-join
of the unification prompt — either way the batch of one record comes back
with zero records. -/
theorem claimC1_counterexample :
    (process_posts true (fun _ => svcFrench) USvc.err (.loaded [postHi])).length = 1 ∧
    dget (process_posts true (fun _ => svcFrench) USvc.err (.loaded [postHi])).headI
      kLanguage = some (.vstr frStr) ∧
    frStr ≠ engStr ∧
    frStr ≠ hingStr ∧
    (process_posts true (fun _ => svcNested) USvc.err (.loaded [postHi])).length = 0 ∧
    (process_posts true (fun _ => svcIntTags) USvc.err (.loaded [postHi])).length = 0 ∧
    dget (process_posts true (fun _ => svcEmptyTags) USvc.err (.loaded [postHi])).headI
      kTags = some (.varr []) := by decide

/-- Claim C1 (amended): for well-formed records and well-formed service
behaviours (parsed responses are objects with distinct keys and string
tags), the pipeline returns exactly N records, each with `line_count`,
`language` and `tags` fields present and `tags` a list; `language` being
English or Hinglish and `tags` being non-empty hold on every fallback path
but are not enforced against a successfully parsed response. -/
theorem claimC1_coverage (ok : Bool) (svc : Nat → SvcResult) (usvc : USvc)
    (posts : List Record)
    (hwf : ∀ p ∈ posts, wfPost p = true) (hsvc : ∀ j, svcWF (svc j) = true) :
    (process_posts ok svc usvc (.loaded posts)).length = posts.length ∧
    ∀ q ∈ process_posts ok svc usvc (.loaded posts),
      hasKey q kLineCount = true ∧ hasKey q kLanguage = true ∧
      ∃ xs, dget q kTags = some (.varr xs) := by
  obtain ⟨enr, hen, hlen, hall⟩ := enrichList_good ok svc hsvc posts 0 hwf
  obtain ⟨mp, hmp, hmph⟩ := get_unified_tags_good usvc enr
    (fun r hr => (hall r hr).2.2)
  have hallh : ∀ r ∈ enr, hasKey r kLineCount = true ∧ hasKey r kLanguage = true ∧
      ∃ xs, dget r kTags = some (.varr xs) ∧ xs.all hashable = true := by
    intro r hr
    obtain ⟨h1, h2, xs, hx1, hx2⟩ := hall r hr
    exact ⟨h1, h2, xs, hx1, all_isStr_hashable xs hx2⟩
  obtain ⟨out, hout, hlen2, hall2⟩ := applyList_good mp hmph enr hallh
  have hp : process_posts ok svc usvc (.loaded posts) = out := by
    simp only [process_posts, hen, hmp, hout]
  rw [hp]
  exact ⟨hlen2.trans hlen, hall2⟩

theorem claimC1_witness :
    (process_posts true (fun _ => SvcResult.err) USvc.err (.loaded [postHi])).length =
      [postHi].length ∧
    ∀ q ∈ process_posts true (fun _ => SvcResult.err) USvc.err (.loaded [postHi]),
      hasKey q kLineCount = true ∧ hasKey q kLanguage = true ∧
      ∃ xs, dget q kTags = some (.varr xs) :=
  claimC1_coverage true (fun _ => SvcResult.err) USvc.err [postHi]
    (by
      intro p hp
      rw [List.mem_singleton] at hp
      subst hp
      decide)
    (fun j => rfl)
